import Mathlib

/-!
# Verification of the torchbearer grid toolkit

Shallow embedding of the `torchbearer` Rust crate (line/circle rasterization,
field of view, A* path search) together with proofs about the embedded code.

Conventions of the embedding:
* Rust `i32` values are modelled as `Int` (the claims under study are about
  small-scale geometric behaviour, not wrap-around arithmetic).
* Rust iterators are modelled as an explicit state record plus a `next`
  function returning `Option (item × state)`; the stream of yielded items is
  materialized by `toList` with a fuel argument chosen at least as large as
  the number of items the Rust iterator yields.
* Rust panics are modelled with `Except PanicMsg`; `PanicMsg` carries the
  values that the Rust `panic!` format string would print.
* Rust `f32` costs in the A* engine are modelled as exact rationals `ℚ`.
-/

namespace Torchbearer

/-- `type Point = (i32, i32)` from `lib.rs`. -/
abbrev Point := Int × Int

/-! ## `bresenham.rs`: Octant -/

/-- `Octant::from_points` (bresenham.rs). The Rust code mutates `dx`, `dy`
and `octant`; each mutation step is modelled by shadowing `let`s. -/
def octantFromPoints (s e : Point) : Nat :=
  let dx0 := e.1 - s.1
  let dy0 := e.2 - s.2
  -- if dy < 0 { dx = -dx; dy = -dy; octant += 4 }
  let dx1 := if dy0 < 0 then -dx0 else dx0
  let dy1 := if dy0 < 0 then -dy0 else dy0
  let o1 : Nat := if dy0 < 0 then 4 else 0
  -- if dx < 0 { let tmp = dx; dx = dy; dy = -tmp; octant += 2 }
  let dx2 := if dx1 < 0 then dy1 else dx1
  let dy2 := if dx1 < 0 then -dx1 else dy1
  let o2 : Nat := if dx1 < 0 then o1 + 2 else o1
  -- if dx < dy { octant += 1 }
  if dx2 < dy2 then o2 + 1 else o2

/-- `Octant::to_octant` (bresenham.rs); the `unreachable!` default arm is
modelled as the identity (it is never hit: the octant index is below 8). -/
def pointToOctant (o : Nat) (p : Point) : Point :=
  match o with
  | 0 => (p.1, p.2)
  | 1 => (p.2, p.1)
  | 2 => (p.2, -p.1)
  | 3 => (-p.1, p.2)
  | 4 => (-p.1, -p.2)
  | 5 => (-p.2, -p.1)
  | 6 => (-p.2, p.1)
  | 7 => (p.1, -p.2)
  | _ => p

/-- `Octant::from_octant` (bresenham.rs); same convention for the
`unreachable!` arm. -/
def pointFromOctant (o : Nat) (p : Point) : Point :=
  match o with
  | 0 => (p.1, p.2)
  | 1 => (p.2, p.1)
  | 2 => (-p.2, p.1)
  | 3 => (-p.1, p.2)
  | 4 => (-p.1, -p.2)
  | 5 => (-p.2, -p.1)
  | 6 => (p.2, -p.1)
  | 7 => (p.1, -p.2)
  | _ => p

/-! ## `bresenham.rs`: BresenhamLine -/

/-- The `BresenhamLine` iterator state (bresenham.rs). -/
structure BresenhamLine where
  x : Int
  y : Int
  dx : Int
  dy : Int
  x1 : Int
  diff : Int
  octant : Nat
  deriving Repr, DecidableEq

/-- `BresenhamLine::new` (bresenham.rs). -/
def BresenhamLine.new (s e : Point) : BresenhamLine :=
  let octant := octantFromPoints s e
  let start := pointToOctant octant s
  let «end» := pointToOctant octant e
  let dx := «end».1 - start.1
  let dy := «end».2 - start.2
  { x := start.1, y := start.2, dx := dx, dy := dy, x1 := «end».1,
    diff := dy - dx, octant := octant }

/-- `<BresenhamLine as Iterator>::next` (bresenham.rs). -/
def BresenhamLine.next (s : BresenhamLine) : Option (Point × BresenhamLine) :=
  if s.x > s.x1 then
    none
  else
    let p := (s.x, s.y)
    let s1 := if s.diff ≥ 0 then { s with y := s.y + 1, diff := s.diff - s.dx } else s
    let s2 := { s1 with diff := s1.diff + s1.dy, x := s1.x + 1 }
    some (pointFromOctant s.octant p, s2)

/-- Materialize the stream of an iterator state, yielding at most `fuel`
items. -/
def BresenhamLine.toList (s : BresenhamLine) : Nat → List Point
  | 0 => []
  | fuel + 1 =>
    match s.next with
    | none => []
    | some (p, s') => p :: s'.toList fuel

theorem BresenhamLine.toList_succ {s : BresenhamLine} {p : Point} {s' : BresenhamLine}
    (h : s.next = some (p, s')) (fuel : Nat) :
    s.toList (fuel + 1) = p :: s'.toList fuel := by
  simp only [BresenhamLine.toList, h]

/-- All points yielded by `BresenhamLine::new(s, e)`, in order. The Rust
iterator yields exactly `x1 - x + 1` items (proved below), so this fuel
captures the complete stream. -/
def bresenhamList (s e : Point) : List Point :=
  let b := BresenhamLine.new s e
  b.toList ((b.x1 - b.x).toNat + 1)

/-! ## Properties of the octant normalization -/

theorem octantFromPoints_canonical (s e : Point) :
    0 ≤ (pointToOctant (octantFromPoints s e) e).2 - (pointToOctant (octantFromPoints s e) s).2 ∧
    (pointToOctant (octantFromPoints s e) e).2 - (pointToOctant (octantFromPoints s e) s).2 ≤
      (pointToOctant (octantFromPoints s e) e).1 - (pointToOctant (octantFromPoints s e) s).1 ∧
    (pointToOctant (octantFromPoints s e) e).1 - (pointToOctant (octantFromPoints s e) s).1 =
      (max (e.1 - s.1).natAbs (e.2 - s.2).natAbs : Int) := by
  simp only [octantFromPoints]
  split_ifs <;> simp only [pointToOctant] <;> omega

theorem fromOctant_toOctant (s e p : Point) :
    pointFromOctant (octantFromPoints s e) (pointToOctant (octantFromPoints s e) p) = p := by
  simp only [octantFromPoints]
  split_ifs <;> simp [pointToOctant, pointFromOctant]

/-! ## Characterization of the canonical-octant walk -/

/-- In the canonical octant, the `y` offset after `k` steps is
`⌊k·dy / dx⌋` (proved below); this is the closed form used to describe the
iterator states. -/
def canonY (dx dy : Int) (k : Nat) : Nat := (k * dy.toNat) / dx.toNat

/-- The iterator state after `k` steps of the canonical walk. -/
def stateAt (x0 y0 dx dy : Int) (o : Nat) (k : Nat) : BresenhamLine :=
  { x := x0 + k, y := y0 + canonY dx dy k, dx := dx, dy := dy, x1 := x0 + dx,
    diff := ((k : Int) + 1) * dy - ((canonY dx dy k : Int) + 1) * dx, octant := o }

theorem new_eq_stateAt (s e : Point) :
    BresenhamLine.new s e =
      stateAt (pointToOctant (octantFromPoints s e) s).1
        (pointToOctant (octantFromPoints s e) s).2
        ((pointToOctant (octantFromPoints s e) e).1 - (pointToOctant (octantFromPoints s e) s).1)
        ((pointToOctant (octantFromPoints s e) e).2 - (pointToOctant (octantFromPoints s e) s).2)
        (octantFromPoints s e) 0 := by
  simp only [BresenhamLine.new, stateAt, canonY, Nat.zero_mul, Nat.zero_div,
    BresenhamLine.mk.injEq]
  and_intros <;> first
    | rfl
    | trivial
    | (push_cast; try ring)

theorem next_stateAt_emit (x0 y0 dx dy : Int) (o : Nat) (k : Nat)
    (hk : ¬ (x0 + (k : Int) > x0 + dx)) :
    ∃ s', (stateAt x0 y0 dx dy o k).next =
      some (pointFromOctant o (x0 + k, y0 + canonY dx dy k), s') := by
  simp only [BresenhamLine.next, stateAt]
  rw [if_neg hk]
  split_ifs <;> exact ⟨_, rfl⟩

theorem next_stateAt (x0 y0 dx dy : Int) (o : Nat) (k : Nat)
    (hdy : 0 ≤ dy) (hdxdy : dy ≤ dx) (hklt : k < dx.toNat) :
    (stateAt x0 y0 dx dy o k).next =
      some (pointFromOctant o (x0 + k, y0 + canonY dx dy k),
        stateAt x0 y0 dx dy o (k + 1)) := by
  have hD : ((dx.toNat : Int)) = dx := Int.toNat_of_nonneg (le_trans hdy hdxdy)
  have hE : ((dy.toNat : Int)) = dy := Int.toNat_of_nonneg hdy
  have hED : dy.toNat ≤ dx.toNat := by omega
  have hDpos : 0 < dx.toNat := by omega
  have h1 : canonY dx dy (k + 1) ≤ canonY dx dy k + 1 := by
    unfold canonY
    calc ((k + 1) * dy.toNat) / dx.toNat = (k * dy.toNat + dy.toNat) / dx.toNat := by
          ring_nf
      _ ≤ (k * dy.toNat + dx.toNat) / dx.toNat := Nat.div_le_div_right (by omega)
      _ = (k * dy.toNat) / dx.toNat + 1 := Nat.add_div_right _ hDpos
  have h2 : canonY dx dy k ≤ canonY dx dy (k + 1) :=
    Nat.div_le_div_right (Nat.mul_le_mul_right _ (by omega))
  have h3 : canonY dx dy k + 1 ≤ canonY dx dy (k + 1) ↔
      (canonY dx dy k + 1) * dx.toNat ≤ (k + 1) * dy.toNat := by
    unfold canonY
    exact Nat.le_div_iff_mul_le hDpos
  simp only [BresenhamLine.next, stateAt]
  rw [if_neg (by omega)]
  split_ifs with hdiff
  · -- diff ≥ 0: the canonical walk advances y
    have hc : ((canonY dx dy k + 1) * dx.toNat : Int) ≤ ((k + 1) * dy.toNat : Int) := by
      push_cast [hD, hE]
      linarith
    have hmul : (canonY dx dy k + 1) * dx.toNat ≤ (k + 1) * dy.toNat := by
      exact_mod_cast hc
    have hq : canonY dx dy (k + 1) = canonY dx dy k + 1 := by omega
    simp only [Option.some.injEq, Prod.mk.injEq, BresenhamLine.mk.injEq, hq]
    and_intros <;> first
      | rfl
      | trivial
      | (push_cast; try ring)
  · -- diff < 0: y stays
    have hnot : ¬ ((canonY dx dy k + 1) * dx.toNat ≤ (k + 1) * dy.toNat) := by
      intro hc
      have hci : ((canonY dx dy k + 1) * dx.toNat : Int) ≤ ((k + 1) * dy.toNat : Int) := by
        exact_mod_cast hc
      push_cast [hD, hE] at hci
      push_neg at hdiff
      linarith
    have hq : canonY dx dy (k + 1) = canonY dx dy k := by omega
    simp only [Option.some.injEq, Prod.mk.injEq, BresenhamLine.mk.injEq, hq]
    and_intros <;> first
      | rfl
      | trivial
      | (push_cast; try ring)

theorem toList_stateAt (x0 y0 dx dy : Int) (o : Nat)
    (hdy : 0 ≤ dy) (hdxdy : dy ≤ dx) :
    ∀ (m k : Nat), k + m = dx.toNat + 1 →
      (stateAt x0 y0 dx dy o k).toList m =
        (List.range m).map
          (fun j => pointFromOctant o (x0 + ((k + j : Nat) : Int),
            y0 + canonY dx dy (k + j))) := by
  intro m
  induction m with
  | zero => intro k _; rfl
  | succ m ih =>
    intro k hkm
    have hkdx : (k : Int) ≤ dx := by
      have : ((dx.toNat : Int)) = dx := Int.toNat_of_nonneg (le_trans hdy hdxdy)
      omega
    rw [List.range_succ_eq_map, List.map_cons]
    cases m with
    | zero =>
      obtain ⟨s', hs'⟩ := next_stateAt_emit x0 y0 dx dy o k (by omega)
      rw [BresenhamLine.toList_succ hs']
      simp [BresenhamLine.toList]
    | succ m' =>
      have hklt : k < dx.toNat := by omega
      rw [BresenhamLine.toList_succ (next_stateAt x0 y0 dx dy o k hdy hdxdy hklt)]
      have ihk := ih (k + 1) (by omega)
      rw [ihk]
      simp only [List.map_map, List.cons.injEq]
      refine ⟨by norm_num, ?_⟩
      apply List.map_congr_left
      intro j _
      have hj1 : k + Nat.succ j = k + 1 + j := by omega
      simp only [Function.comp_apply, hj1]

theorem bresenhamList_eq (s e : Point) :
    bresenhamList s e =
      (List.range (max (e.1 - s.1).natAbs (e.2 - s.2).natAbs + 1)).map
        (fun j : Nat => pointFromOctant (octantFromPoints s e)
          ((pointToOctant (octantFromPoints s e) s).1 + (j : Int),
           (pointToOctant (octantFromPoints s e) s).2 +
             (canonY ((pointToOctant (octantFromPoints s e) e).1 -
                      (pointToOctant (octantFromPoints s e) s).1)
                     ((pointToOctant (octantFromPoints s e) e).2 -
                      (pointToOctant (octantFromPoints s e) s).2) j : Int))) := by
  obtain ⟨h1, h2, h3⟩ := octantFromPoints_canonical s e
  have hDmax : ((pointToOctant (octantFromPoints s e) e).1 -
      (pointToOctant (octantFromPoints s e) s).1).toNat =
      max (e.1 - s.1).natAbs (e.2 - s.2).natAbs := by omega
  simp only [bresenhamList]
  rw [new_eq_stateAt s e]
  have hproj : (((stateAt (pointToOctant (octantFromPoints s e) s).1
      (pointToOctant (octantFromPoints s e) s).2
      ((pointToOctant (octantFromPoints s e) e).1 - (pointToOctant (octantFromPoints s e) s).1)
      ((pointToOctant (octantFromPoints s e) e).2 - (pointToOctant (octantFromPoints s e) s).2)
      (octantFromPoints s e) 0).x1 -
      (stateAt (pointToOctant (octantFromPoints s e) s).1
      (pointToOctant (octantFromPoints s e) s).2
      ((pointToOctant (octantFromPoints s e) e).1 - (pointToOctant (octantFromPoints s e) s).1)
      ((pointToOctant (octantFromPoints s e) e).2 - (pointToOctant (octantFromPoints s e) s).2)
      (octantFromPoints s e) 0).x).toNat + 1) =
      ((pointToOctant (octantFromPoints s e) e).1 -
        (pointToOctant (octantFromPoints s e) s).1).toNat + 1 := by
    simp [stateAt]
  rw [hproj, toList_stateAt _ _ _ _ _ h1 h2 _ 0 (by omega), hDmax]
  apply List.map_congr_left
  intro j _
  simp


theorem bresenhamList_length (s e : Point) :
    (bresenhamList s e).length = max (e.1 - s.1).natAbs (e.2 - s.2).natAbs + 1 := by
  rw [bresenhamList_eq]
  simp

theorem bresenhamList_head (s e : Point) : (bresenhamList s e).head? = some s := by
  rw [bresenhamList_eq, List.range_succ_eq_map, List.map_cons, List.head?_cons]
  simp only [canonY, Nat.zero_mul, Nat.zero_div, Nat.cast_zero, add_zero, Option.some.injEq]
  exact fromOctant_toOctant s e s

theorem bresenhamList_last (s e : Point) : (bresenhamList s e).getLast? = some e := by
  obtain ⟨h1, h2, h3⟩ := octantFromPoints_canonical s e
  rw [bresenhamList_eq, List.range_succ, List.map_append, List.map_cons, List.map_nil,
    List.getLast?_append_cons, List.getLast?_singleton]
  have hcanon : canonY ((pointToOctant (octantFromPoints s e) e).1 -
      (pointToOctant (octantFromPoints s e) s).1)
      ((pointToOctant (octantFromPoints s e) e).2 -
      (pointToOctant (octantFromPoints s e) s).2)
      (max (e.1 - s.1).natAbs (e.2 - s.2).natAbs) =
      ((pointToOctant (octantFromPoints s e) e).2 -
        (pointToOctant (octantFromPoints s e) s).2).toNat := by
    unfold canonY
    rcases Nat.eq_zero_or_pos ((pointToOctant (octantFromPoints s e) e).1 -
        (pointToOctant (octantFromPoints s e) s).1).toNat with hz | hpos
    · have : ((pointToOctant (octantFromPoints s e) e).2 -
          (pointToOctant (octantFromPoints s e) s).2).toNat = 0 := by omega
      simp [hz, this]
    · have hmax : max (e.1 - s.1).natAbs (e.2 - s.2).natAbs =
          ((pointToOctant (octantFromPoints s e) e).1 -
            (pointToOctant (octantFromPoints s e) s).1).toNat := by omega
      rw [hmax]
      exact Nat.mul_div_cancel_left _ hpos
  rw [hcanon]
  have hpt : ((pointToOctant (octantFromPoints s e) s).1 +
        ((max (e.1 - s.1).natAbs (e.2 - s.2).natAbs : Nat) : Int),
      (pointToOctant (octantFromPoints s e) s).2 +
        ((((pointToOctant (octantFromPoints s e) e).2 -
          (pointToOctant (octantFromPoints s e) s).2).toNat : Nat) : Int)) =
      pointToOctant (octantFromPoints s e) e := by
    have hx : ((pointToOctant (octantFromPoints s e) s).1 +
        ((max (e.1 - s.1).natAbs (e.2 - s.2).natAbs : Nat) : Int)) =
        (pointToOctant (octantFromPoints s e) e).1 := by omega
    have hy : ((pointToOctant (octantFromPoints s e) s).2 +
        ((((pointToOctant (octantFromPoints s e) e).2 -
          (pointToOctant (octantFromPoints s e) s).2).toNat : Nat) : Int)) =
        (pointToOctant (octantFromPoints s e) e).2 := by omega
    rw [hx, hy]
  rw [Option.some.injEq, hpt]
  exact fromOctant_toOctant s e e

/-- Sanity check mirroring the crate's `test_wp_example`. -/
theorem bresenham_wp_example :
    bresenhamList (0, 1) (6, 4) = [(0, 1), (1, 1), (2, 2), (3, 2), (4, 3), (5, 3), (6, 4)] := by
  decide

/-- Sanity check mirroring the crate's `test_inverse_wp`. -/
theorem bresenham_inverse_wp_example :
    bresenhamList (6, 4) (0, 1) = [(6, 4), (5, 4), (4, 3), (3, 3), (2, 2), (1, 2), (0, 1)] := by
  decide


/-- C1: for every pair of points `start` and `end`, the sequence yielded by
`BresenhamLine::new(start, end)` begins with `start`, ends with `end`, and
has length `max(|end.x - start.x|, |end.y - start.y|) + 1`. -/
theorem bresenham_line_endpoints_and_length (s e : Point) :
    (bresenhamList s e).head? = some s ∧
    (bresenhamList s e).getLast? = some e ∧
    (bresenhamList s e).length = max (e.1 - s.1).natAbs (e.2 - s.2).natAbs + 1 :=
  ⟨bresenhamList_head s e, bresenhamList_last s e, bresenhamList_length s e⟩

/-- C7 counterexample: `BresenhamLine::new(end, start)` is NOT the reverse of
`BresenhamLine::new(start, end)` at `start = (0,1)`, `end = (6,4)` — exactly
the pair exercised by the crate's own `test_wp_example`/`test_inverse_wp`
tests, which assert the two (different) sequences. -/
theorem bresenham_reverse_counterexample :
    bresenhamList (6, 4) (0, 1) ≠ (bresenhamList (0, 1) (6, 4)).reverse := by
  decide

/-- C7 (amended): for every pair of points, the sequence yielded by
`BresenhamLine::new(end, start)` has the same length, the same first point
and the same last point as the reverse of the sequence yielded by
`BresenhamLine::new(start, end)` (it runs from `end` back to `start`), but
it is not in general the pointwise reverse of that sequence. -/
theorem bresenham_reverse_amended (s e : Point) :
    (bresenhamList e s).length = (bresenhamList s e).reverse.length ∧
    (bresenhamList e s).head? = (bresenhamList s e).reverse.head? ∧
    (bresenhamList e s).getLast? = (bresenhamList s e).reverse.getLast? := by
  refine ⟨?_, ?_, ?_⟩
  · rw [List.length_reverse, bresenhamList_length, bresenhamList_length]
    omega
  · rw [List.head?_reverse, bresenhamList_head, bresenhamList_last]
  · rw [List.getLast?_reverse, bresenhamList_last, bresenhamList_head]


/-! ## `bresenham.rs`: ThickBresenhamCircle -/

/-- The `ThickBresenhamCircle` iterator state (bresenham.rs). The Rust
`octant` field is an `i8` that also takes the sentinel value `-1`, hence
`Int` here; `current_step` is a `u32`. -/
structure ThickBresenhamCircle where
  center : Point
  radius : Int
  x : Int
  y : Int
  err : Int
  moved : Bool
  octant : Int
  current_step : Nat
  deriving Repr, DecidableEq

/-- `ThickBresenhamCircle::new` (bresenham.rs). -/
def ThickBresenhamCircle.new (center : Point) (radius : Int) : ThickBresenhamCircle :=
  let err := if radius = 1 then -1 else 3 - 2 * radius
  { center := center, radius := radius, x := radius, y := 0, err := err,
    moved := false, octant := 0, current_step := 0 }

/-- The octant-mirroring of the current arc position
(the `match self.current_quadrant`-style table in
`<ThickBresenhamCircle as Iterator>::next`); the `unreachable!` arm is
modelled as the center (never hit: octant stays within 0..=7 when read). -/
def ThickBresenhamCircle.pointAt (s : ThickBresenhamCircle) : Point :=
  match s.octant with
  | 0 => (s.center.1 + s.x, s.center.2 + s.y)
  | 1 => (s.center.1 + s.y, s.center.2 + s.x)
  | 2 => (s.center.1 - s.y, s.center.2 + s.x)
  | 3 => (s.center.1 - s.x, s.center.2 + s.y)
  | 4 => (s.center.1 - s.x, s.center.2 - s.y)
  | 5 => (s.center.1 - s.y, s.center.2 - s.x)
  | 6 => (s.center.1 + s.y, s.center.2 - s.x)
  | 7 => (s.center.1 + s.x, s.center.2 - s.y)
  | _ => s.center

/-- The arc-advance block at the start of
`<ThickBresenhamCircle as Iterator>::next` (run when `octant == -1`). -/
def ThickBresenhamCircle.advance (s : ThickBresenhamCircle) : ThickBresenhamCircle :=
  if s.moved then
    { s with y := s.y + 1, moved := false }
  else if s.err > 0 then
    { s with err := s.err + 2 * (5 - 2 * s.x + 2 * s.y), x := s.x - 1, moved := true }
  else
    { s with err := s.err + 2 * (3 + 2 * s.y), y := s.y + 1 }

/-- The point-emission tail of `next`: read the point for the current
octant, then move `octant` forward by `step` (2 on the first arc position
and on positions with `x <= y`, else 1), wrapping to the sentinel `-1`. -/
def ThickBresenhamCircle.emit (s : ThickBresenhamCircle) : Point × ThickBresenhamCircle :=
  let point := s.pointAt
  let step : Int := if s.current_step = 0 ∨ s.x ≤ s.y then 2 else 1
  if s.octant + step < 8 then (point, { s with octant := s.octant + step })
  else (point, { s with octant := -1 })

/-- `<ThickBresenhamCircle as Iterator>::next` (bresenham.rs). -/
def ThickBresenhamCircle.next (s : ThickBresenhamCircle) :
    Option (Point × ThickBresenhamCircle) :=
  if s.octant = -1 then
    if s.x ≤ s.y then none
    else
      some (ThickBresenhamCircle.emit
        { s.advance with octant := 0, current_step := s.current_step + 1 })
  else
    some s.emit

/-- Materialize the stream of the iterator, yielding at most `fuel` items. -/
def ThickBresenhamCircle.toList (s : ThickBresenhamCircle) : Nat → List Point
  | 0 => []
  | fuel + 1 =>
    match s.next with
    | none => []
    | some (p, s') => p :: s'.toList fuel

/-- All points yielded by `ThickBresenhamCircle::new(c, radius)`. The Rust
iterator yields exactly `8 * radius` items for `radius ≥ 1` (proved below),
so this fuel captures the complete stream. -/
def thickCircleList (c : Point) (radius : Int) : List Point :=
  (ThickBresenhamCircle.new c radius).toList (8 * radius.toNat + 8)


/-! ## Counting the thick circle's output -/

theorem ThickBresenhamCircle.toList_stop (c : Point) (r x y err : Int) (mv : Bool)
    (cs : Nat) (hxy : x ≤ y) (fuel : Nat) :
    (ThickBresenhamCircle.mk c r x y err mv (-1) cs).toList fuel = [] := by
  cases fuel with
  | zero => rfl
  | succ n => simp [ThickBresenhamCircle.toList, ThickBresenhamCircle.next, hxy]

theorem ThickBresenhamCircle.toList_advance (c : Point) (r x y err : Int) (mv : Bool)
    (cs : Nat) (hxy : ¬ x ≤ y) (fuel : Nat) :
    (ThickBresenhamCircle.mk c r x y err mv (-1) cs).toList fuel =
      ThickBresenhamCircle.toList
        { (ThickBresenhamCircle.mk c r x y err mv (-1) cs).advance with
            octant := 0, current_step := cs + 1 } fuel := by
  cases fuel with
  | zero => rfl
  | succ n =>
    simp only [ThickBresenhamCircle.toList, ThickBresenhamCircle.next, hxy]
    norm_num

theorem ThickBresenhamCircle.sweep_four (c : Point) (r x y err : Int) (mv : Bool)
    (cs : Nat) (h : cs = 0 ∨ x ≤ y) (fuel : Nat) :
    (ThickBresenhamCircle.mk c r x y err mv 0 cs).toList (fuel + 1 + 1 + 1 + 1) =
      (c.1 + x, c.2 + y) :: (c.1 - y, c.2 + x) :: (c.1 - x, c.2 - y) :: (c.1 + y, c.2 - x) ::
        (ThickBresenhamCircle.mk c r x y err mv (-1) cs).toList fuel := by
  have hstep : (if cs = 0 ∨ x ≤ y then (2 : Int) else 1) = 2 := if_pos h
  simp [ThickBresenhamCircle.toList, ThickBresenhamCircle.next,
    ThickBresenhamCircle.emit, ThickBresenhamCircle.pointAt, hstep]

theorem ThickBresenhamCircle.sweep_eight (c : Point) (r x y err : Int) (mv : Bool)
    (cs : Nat) (hcs : ¬ cs = 0) (hxy : ¬ x ≤ y) (fuel : Nat) :
    (ThickBresenhamCircle.mk c r x y err mv 0 cs).toList
        (fuel + 1 + 1 + 1 + 1 + 1 + 1 + 1 + 1) =
      (c.1 + x, c.2 + y) :: (c.1 + y, c.2 + x) :: (c.1 - y, c.2 + x) :: (c.1 - x, c.2 + y) ::
      (c.1 - x, c.2 - y) :: (c.1 - y, c.2 - x) :: (c.1 + y, c.2 - x) :: (c.1 + x, c.2 - y) ::
        (ThickBresenhamCircle.mk c r x y err mv (-1) cs).toList fuel := by
  have hstep : (if cs = 0 ∨ x ≤ y then (2 : Int) else 1) = 1 := if_neg (by tauto)
  simp [ThickBresenhamCircle.toList, ThickBresenhamCircle.next,
    ThickBresenhamCircle.emit, ThickBresenhamCircle.pointAt, hstep]

theorem thick_count_arc (n : Nat) : ∀ (c : Point) (r x y err : Int) (mv : Bool)
    (cs : Nat) (fuel : Nat), (x - y).toNat = n → 8 * n ≤ fuel →
    ((ThickBresenhamCircle.mk c r x y err mv (-1) cs).toList fuel).length =
      8 * n - 4 * min n 1 := by
  induction n with
  | zero =>
    intro c r x y err mv cs fuel hn _
    rw [ThickBresenhamCircle.toList_stop c r x y err mv cs (by omega)]
    simp
  | succ m ih =>
    intro c r x y err mv cs fuel hn hfuel
    have hgt : ¬ x ≤ y := by omega
    rw [ThickBresenhamCircle.toList_advance c r x y err mv cs hgt]
    obtain ⟨x', y', err', mv', heq, hdiff⟩ : ∃ x' y' err' mv',
        ({ (ThickBresenhamCircle.mk c r x y err mv (-1) cs).advance with
            octant := (0 : Int), current_step := cs + 1 }) =
          ThickBresenhamCircle.mk c r x' y' err' mv' 0 (cs + 1) ∧ x' - y' = x - y - 1 := by
      unfold ThickBresenhamCircle.advance
      split_ifs <;> exact ⟨_, _, _, _, rfl, by ring⟩
    rw [heq]
    cases m with
    | zero =>
      have hxy' : x' ≤ y' := by omega
      obtain ⟨f, rfl⟩ : ∃ f, fuel = f + 1 + 1 + 1 + 1 := ⟨fuel - 4, by omega⟩
      rw [ThickBresenhamCircle.sweep_four c r x' y' err' mv' (cs + 1) (Or.inr hxy')]
      rw [ThickBresenhamCircle.toList_stop c r x' y' err' mv' (cs + 1) hxy']
      simp
    | succ m' =>
      have hxy' : ¬ x' ≤ y' := by omega
      obtain ⟨f, rfl⟩ : ∃ f, fuel = f + 1 + 1 + 1 + 1 + 1 + 1 + 1 + 1 :=
        ⟨fuel - 8, by omega⟩
      rw [ThickBresenhamCircle.sweep_eight c r x' y' err' mv' (cs + 1) (by omega) hxy']
      have hrec := ih c r x' y' err' mv' (cs + 1) f (by omega) (by omega)
      simp only [List.length_cons, hrec]
      omega

theorem thickCircleList_length (c : Point) (r : Int) (hr : 1 ≤ r) :
    ((thickCircleList c r).length : Int) = 8 * r := by
  have key : ∀ (e : Int), ((ThickBresenhamCircle.mk c r r 0 e false 0 0).toList
      (8 * r.toNat + 8)).length = 8 * r.toNat := by
    intro e
    obtain ⟨f, hf, hle⟩ : ∃ f, 8 * r.toNat + 8 = f + 1 + 1 + 1 + 1 ∧ 8 * r.toNat ≤ f :=
      ⟨8 * r.toNat + 4, by omega, by omega⟩
    rw [hf, ThickBresenhamCircle.sweep_four c r r 0 e false 0 (Or.inl rfl)]
    simp only [List.length_cons]
    rw [thick_count_arc r.toNat c r r 0 e false 0 f (by omega) hle]
    omega
  have hdef : thickCircleList c r = (ThickBresenhamCircle.mk c r r 0
      (if r = 1 then -1 else 3 - 2 * r) false 0 0).toList (8 * r.toNat + 8) := rfl
  rw [hdef, key]
  omega

/-- The radius-1 special case produces the eight points of the unit square
around the center (cf. the crate's `circle_radius_1_is_square` test). -/
theorem thickCircleList_one (c : Point) :
    thickCircleList c 1 = [(c.1 + 1, c.2), (c.1, c.2 + 1), (c.1 - 1, c.2), (c.1, c.2 - 1),
      (c.1 + 1, c.2 + 1), (c.1 - 1, c.2 + 1), (c.1 - 1, c.2 - 1), (c.1 + 1, c.2 - 1)] := by
  have hdef : thickCircleList c 1 = (ThickBresenhamCircle.mk c 1 1 0 (-1) false 0 0).toList
      (12 + 1 + 1 + 1 + 1) := rfl
  rw [hdef, ThickBresenhamCircle.sweep_four c 1 1 0 (-1) false 0 (Or.inl rfl)]
  rw [ThickBresenhamCircle.toList_advance c 1 1 0 (-1) false 0 (by norm_num)]
  have hadv : ({ (ThickBresenhamCircle.mk c 1 1 0 (-1) false (-1) 0).advance with
      octant := (0 : Int), current_step := 0 + 1 }) =
      ThickBresenhamCircle.mk c 1 1 1 5 false 0 1 := by
    simp [ThickBresenhamCircle.advance]
  rw [hadv]
  have h12 : (12 : Nat) = 8 + 1 + 1 + 1 + 1 := by norm_num
  rw [h12, ThickBresenhamCircle.sweep_four c 1 1 1 5 false 1 (Or.inr (by norm_num))]
  rw [ThickBresenhamCircle.toList_stop c 1 1 1 5 false 1 (by norm_num)]
  norm_num


/-- C2: for every center point and every radius >= 2,
`ThickBresenhamCircle::new(center, radius)` yields exactly `8 * radius`
points; for radius = 1 it yields exactly the 8 points of the unit square
around the center. Order-independence of the radius-1 part is captured by
stating it as a `Multiset` equality. -/
theorem thick_circle_count_and_unit_square :
    (∀ (c : Point) (r : Int), 2 ≤ r → ((thickCircleList c r).length : Int) = 8 * r) ∧
    (∀ c : Point, (thickCircleList c 1 : Multiset Point) =
      {(c.1 + 1, c.2), (c.1, c.2 + 1), (c.1 - 1, c.2), (c.1, c.2 - 1),
       (c.1 + 1, c.2 + 1), (c.1 - 1, c.2 + 1), (c.1 - 1, c.2 - 1), (c.1 + 1, c.2 - 1)}) := by
  constructor
  · intro c r hr
    exact thickCircleList_length c r (by omega)
  · intro c
    rw [thickCircleList_one]
    rfl

/-- Witness for C2 at center `(0, 0)` and radius `3` (the radius used by the
crate's `circle_predictable_length` test). -/
theorem thick_circle_count_witness :
    (2 : Int) ≤ 3 ∧ ((thickCircleList ((0 : Int), (0 : Int)) 3).length : Int) = 8 * 3 :=
  ⟨by norm_num, thick_circle_count_and_unit_square.1 (0, 0) 3 (by norm_num)⟩


/-! ## Panic modelling -/

/-- The data carried by the `panic!` messages of `fov.rs` and `path.rs`:
`pointOut width height x y` models
`"(x, y) should be between (0,0) and ({}, {}), got ({}, {})"`,
`indexOut index count` models
`"Index {} is out of bounds for a graph of size {}."`, and
`radiusNeg radius` models `"A radius >= 0 is required, you used {}"`. -/
inductive PanicMsg where
  | pointOut (width height x y : Int)
  | indexOut (index count : Nat)
  | radiusNeg (radius : Int)
  deriving Repr, DecidableEq

/-! ## `fov.rs`: field of view -/

/-- The `Map` trait (lib.rs) as used by `fov.rs`: dimensions plus the
transparency oracle (`is_walkable` is unused by the field of view). -/
structure FovMap where
  width : Int
  height : Int
  transparent : Int → Int → Bool

/-- `is_out_of_bounds` (fov.rs). -/
def FovMap.is_out_of_bounds (m : FovMap) (x y : Int) : Bool :=
  x < 0 ∨ y < 0 ∨ x ≥ m.width ∨ y ≥ m.height

/-- The loop body of `cast_ray` (fov.rs), iterating over the (already
`skip(1)`-ped) Bresenham points. Rust indexes `visibles` with
`(x + y * width) as usize`; every reachable write is in range, and the
embedding makes the write total via `Int.toNat` and `List.set` (which
leaves the list unchanged on an out-of-range index). -/
def castRayGo (m : FovMap) (width ox oy radius_square offset_x offset_y : Int) :
    List Point → List Bool → List Bool
  | [], visibles => visibles
  | (x, y) :: rest, visibles =>
    let distance_square := (x - ox) * (x - ox) + (y - oy) * (y - oy)
    let visibles := if distance_square ≤ radius_square then
        visibles.set (x + y * width).toNat true
      else visibles
    if ¬ m.transparent (x + offset_x) (y + offset_y) then visibles
    else castRayGo m width ox oy radius_square offset_x offset_y rest visibles

/-- `cast_ray` (fov.rs). -/
def cast_ray (m : FovMap) (visibles : List Bool) (width : Int) (origin destination : Point)
    (radius_square offset_x offset_y : Int) : List Bool :=
  castRayGo m width origin.1 origin.2 radius_square offset_x offset_y
    ((bresenhamList origin destination).drop 1) visibles

/-- One cell of the `post_process_vision` double loop (fov.rs). -/
def postProcessCell (m : FovMap) (width dx dy offset_x offset_y x y : Int)
    (visibles : List Bool) : List Bool :=
  let index := (x + y * width).toNat
  let is_see_through := m.transparent (x + offset_x) (y + offset_y)
  if ¬ is_see_through ∧ ¬ visibles.getD index false then
    let neighboor_x := x + dx
    let neighboor_y := y + dy
    let index_0 := (neighboor_x + y * width).toNat
    let index_1 := (x + neighboor_y * width).toNat
    if (m.transparent (neighboor_x + offset_x) (y + offset_y) ∧ visibles.getD index_0 false) ∨
        (m.transparent (x + offset_x) (neighboor_y + offset_y) ∧ visibles.getD index_1 false) then
      visibles.set index true
    else visibles
  else visibles

/-- `post_process_vision` (fov.rs): `for x in minx..=maxx { for y in miny..=maxy { … } }`. -/
def post_process_vision (m : FovMap) (visibles : List Bool)
    (width minx miny maxx maxy dx dy offset_x offset_y : Int) : List Bool :=
  (List.range (maxx + 1 - minx).toNat).foldl
    (fun vis i =>
      (List.range (maxy + 1 - miny).toNat).foldl
        (fun vis' j => postProcessCell m width dx dy offset_x offset_y (minx + i) (miny + j) vis')
        vis)
    visibles

/-- The visibility-bitmap pipeline of `field_of_view` (fov.rs): allocate
the bitmap for the clipped sub-rectangle, mark the origin, cast the rays
to the border of the box, then run the four `post_process_vision` passes. -/
def fovScan (m : FovMap) (x y radius_square minx miny maxx maxy : Int) : List Bool :=
  let sub_width := maxx - minx + 1
  let sub_height := maxy - miny + 1
  let offset_x := minx
  let offset_y := miny
  let sub_origin : Point := (x - offset_x, y - offset_y)
  let visibles := (List.replicate (sub_width * sub_height).toNat false).set
    ((x - offset_x) + (y - offset_y) * sub_width).toNat true
  let visibles := (List.range (maxx + 1 - minx).toNat).foldl
    (fun vis i =>
      let xi := minx + i
      let vis := cast_ray m vis sub_width sub_origin
        (xi - offset_x, miny - offset_y) radius_square offset_x offset_y
      cast_ray m vis sub_width sub_origin
        (xi - offset_x, maxy - offset_y) radius_square offset_x offset_y)
    visibles
  let visibles := (List.range (maxy - (miny + 1)).toNat).foldl
    (fun vis j =>
      let yj := miny + 1 + j
      let vis := cast_ray m vis sub_width sub_origin
        (minx - offset_x, yj - offset_y) radius_square offset_x offset_y
      cast_ray m vis sub_width sub_origin
        (maxx - offset_x, yj - offset_y) radius_square offset_x offset_y)
    visibles
  -- SE
  let visibles := post_process_vision m visibles sub_width
    (x - offset_x + 1) (y - offset_y + 1) (maxx - offset_x) (maxy - offset_y)
    (-1) (-1) offset_x offset_y
  -- SW
  let visibles := post_process_vision m visibles sub_width
    (minx - offset_x) (y - offset_y + 1) (x - offset_x - 1) (maxy - offset_y)
    1 (-1) offset_x offset_y
  -- NW
  let visibles := post_process_vision m visibles sub_width
    (minx - offset_x) (miny - offset_y) (x - offset_x - 1) (y - offset_y - 1)
    1 1 offset_x offset_y
  -- NE
  post_process_vision m visibles sub_width
    (x - offset_x + 1) (miny - offset_y) (maxx - offset_x) (y - offset_y - 1)
    (-1) 1 offset_x offset_y

/-- The final `filter_map` of `field_of_view` (fov.rs), translating set bits
of the sub-rectangle bitmap back to absolute map coordinates. -/
def fovDecode (visibles : List Bool) (sub_width offset_x offset_y : Int) : List Point :=
  visibles.enum.filterMap (fun ib =>
    if ib.2 then
      some (((ib.1 : Int) % sub_width) + offset_x, ((ib.1 : Int) / sub_width) + offset_y)
    else none)

/-- `field_of_view` (fov.rs). -/
def field_of_view (m : FovMap) (from_p : Point) (radius : Int) :
    Except PanicMsg (List Point) :=
  let x := from_p.1
  let y := from_p.2
  let radius_square := radius * radius
  if m.is_out_of_bounds x y then .error (.pointOut m.width m.height x y)
  else if radius < 0 then .error (.radiusNeg radius)
  else if radius < 1 then .ok [(x, y)]
  else
    let minx := max (x - radius) 0
    let miny := max (y - radius) 0
    let maxx := min (x + radius) (m.width - 1)
    let maxy := min (y + radius) (m.height - 1)
    if maxx - minx = 0 ∨ maxy - miny = 0 then .ok []
    else
      .ok (fovDecode (fovScan m x y radius_square minx miny maxx maxy)
        (maxx - minx + 1) minx miny)


/-! ## Every field-of-view point is inside the map -/

theorem castRayGo_length (m : FovMap) (width ox oy rsq ofx ofy : Int) :
    ∀ (pts : List Point) (vis : List Bool),
      (castRayGo m width ox oy rsq ofx ofy pts vis).length = vis.length := by
  intro pts
  induction pts with
  | nil => intro vis; rfl
  | cons p rest ih =>
    intro vis
    obtain ⟨x, y⟩ := p
    simp only [castRayGo]
    split_ifs <;> simp [ih, List.length_set]

theorem cast_ray_length (m : FovMap) (vis : List Bool) (width : Int) (o d : Point)
    (rsq ofx ofy : Int) :
    (cast_ray m vis width o d rsq ofx ofy).length = vis.length :=
  castRayGo_length m width o.1 o.2 rsq ofx ofy _ vis

theorem postProcessCell_length (m : FovMap) (width dx dy ofx ofy x y : Int)
    (vis : List Bool) :
    (postProcessCell m width dx dy ofx ofy x y vis).length = vis.length := by
  simp only [postProcessCell]
  split_ifs <;> simp [List.length_set]

theorem foldl_length_preserved {α : Type} (f : List Bool → α → List Bool) (l : List α)
    (h : ∀ v a, (f v a).length = v.length) :
    ∀ v, (l.foldl f v).length = v.length := by
  induction l with
  | nil => intro v; rfl
  | cons a l ih => intro v; rw [List.foldl_cons, ih, h]

theorem post_process_vision_length (m : FovMap) (vis : List Bool)
    (width minx miny maxx maxy dx dy ofx ofy : Int) :
    (post_process_vision m vis width minx miny maxx maxy dx dy ofx ofy).length =
      vis.length := by
  unfold post_process_vision
  apply foldl_length_preserved
  intro v i
  apply foldl_length_preserved
  intro v' j
  exact postProcessCell_length m width dx dy ofx ofy (minx + i) (miny + j) v'

theorem fovScan_length (m : FovMap) (x y rsq minx miny maxx maxy : Int) :
    (fovScan m x y rsq minx miny maxx maxy).length =
      ((maxx - minx + 1) * (maxy - miny + 1)).toNat := by
  unfold fovScan
  rw [post_process_vision_length, post_process_vision_length, post_process_vision_length,
    post_process_vision_length]
  rw [foldl_length_preserved _ _ (fun v j => by rw [cast_ray_length, cast_ray_length])]
  rw [foldl_length_preserved _ _ (fun v i => by rw [cast_ray_length, cast_ray_length])]
  rw [List.length_set, List.length_replicate]

theorem fovDecode_bounds (vis : List Bool) (W H ofx ofy : Int)
    (hW : 0 < W) (hH : 0 < H) (hlen : vis.length = (W * H).toNat) :
    ∀ q ∈ fovDecode vis W ofx ofy,
      ofx ≤ q.1 ∧ q.1 ≤ ofx + W - 1 ∧ ofy ≤ q.2 ∧ q.2 ≤ ofy + H - 1 := by
  intro q hq
  unfold fovDecode at hq
  obtain ⟨⟨i, b⟩, hmem, hval⟩ := List.mem_filterMap.mp hq
  by_cases hb : b = true
  · subst hb
    simp only [if_pos] at hval
    obtain ⟨hi, -⟩ := List.getElem?_eq_some.mp (List.mk_mem_enum_iff_getElem?.mp hmem)
    rw [hlen] at hi
    have hiWH : (i : Int) < W * H := by
      have hnn : 0 ≤ W * H := le_of_lt (mul_pos hW hH)
      omega
    have hmod0 : 0 ≤ (i : Int) % W := Int.emod_nonneg _ (by omega)
    have hmodW : (i : Int) % W < W := Int.emod_lt_of_pos _ hW
    have hdiv0 : 0 ≤ (i : Int) / W := Int.ediv_nonneg (by positivity) (le_of_lt hW)
    have hdivH : (i : Int) / W < H := (Int.ediv_lt_iff_lt_mul hW).mpr (by linarith)
    obtain ⟨hq1, hq2⟩ : q.1 = (i : Int) % W + ofx ∧ q.2 = (i : Int) / W + ofy := by
      have := hval
      simp only [Option.some.injEq] at this
      rw [← this]
      exact ⟨rfl, rfl⟩
    omega
  · simp [hb] at hval

/-- C6: for every map, in-bounds origin and radius >= 0, every point
returned by `field_of_view` lies within the map bounds. -/
theorem fov_in_bounds (m : FovMap) (p : Point) (radius : Int) (pts : List Point)
    (hx0 : 0 ≤ p.1) (hxw : p.1 < m.width) (hy0 : 0 ≤ p.2) (hyh : p.2 < m.height)
    (hr : 0 ≤ radius) (hok : field_of_view m p radius = .ok pts) :
    ∀ q ∈ pts, 0 ≤ q.1 ∧ q.1 < m.width ∧ 0 ≤ q.2 ∧ q.2 < m.height := by
  have hoob : ¬ (m.is_out_of_bounds p.1 p.2 = true) := by
    simp only [FovMap.is_out_of_bounds, decide_eq_true_eq]
    omega
  simp only [field_of_view] at hok
  rw [if_neg hoob, if_neg (by omega)] at hok
  by_cases hr1 : radius < 1
  · rw [if_pos hr1] at hok
    obtain rfl : [(p.1, p.2)] = pts := by injection hok
    intro q hq
    obtain rfl : q = (p.1, p.2) := List.mem_singleton.mp hq
    exact ⟨hx0, hxw, hy0, hyh⟩
  · rw [if_neg hr1] at hok
    by_cases hcol : min (p.1 + radius) (m.width - 1) - max (p.1 - radius) 0 = 0 ∨
        min (p.2 + radius) (m.height - 1) - max (p.2 - radius) 0 = 0
    · rw [if_pos hcol] at hok
      obtain rfl : ([] : List Point) = pts := by injection hok
      intro q hq
      exact absurd hq (List.not_mem_nil q)
    · rw [if_neg hcol] at hok
      obtain rfl : fovDecode
          (fovScan m p.1 p.2 (radius * radius)
            (max (p.1 - radius) 0) (max (p.2 - radius) 0)
            (min (p.1 + radius) (m.width - 1)) (min (p.2 + radius) (m.height - 1)))
          (min (p.1 + radius) (m.width - 1) - max (p.1 - radius) 0 + 1)
          (max (p.1 - radius) 0) (max (p.2 - radius) 0) = pts := by
        injection hok
      intro q hq
      have hbounds := fovDecode_bounds _
        (min (p.1 + radius) (m.width - 1) - max (p.1 - radius) 0 + 1)
        (min (p.2 + radius) (m.height - 1) - max (p.2 - radius) 0 + 1)
        (max (p.1 - radius) 0) (max (p.2 - radius) 0)
        (by omega) (by omega) (fovScan_length _ _ _ _ _ _ _ _) q hq
      omega


/-- C4: for every map and every in-bounds origin, `field_of_view(map,
origin, 0)` returns exactly the single-element collection containing the
origin. -/
theorem fov_radius_zero (m : FovMap) (p : Point)
    (hx0 : 0 ≤ p.1) (hxw : p.1 < m.width) (hy0 : 0 ≤ p.2) (hyh : p.2 < m.height) :
    field_of_view m p 0 = .ok [p] := by
  have hoob : ¬ (m.is_out_of_bounds p.1 p.2 = true) := by
    simp only [FovMap.is_out_of_bounds, decide_eq_true_eq]
    omega
  simp only [field_of_view]
  rw [if_neg hoob, if_neg (by omega), if_pos (by omega)]

/-- Witness for C4: a fully transparent 3x3 map with origin (1, 1). -/
theorem fov_radius_zero_witness :
    field_of_view ⟨3, 3, fun _ _ => true⟩ ((1 : Int), (1 : Int)) 0 = .ok [(1, 1)] :=
  fov_radius_zero ⟨3, 3, fun _ _ => true⟩ (1, 1)
    (by norm_num) (by norm_num) (by norm_num) (by norm_num)

/-- C5: for every map, in-bounds origin and radius >= 1, if the clipped
bounding box of the radius circle collapses to zero width or zero height,
`field_of_view` returns the empty collection (the origin is not included).
The box is exactly the one computed by the code: `minx = max(x-r, 0)`,
`maxx = min(x+r, width-1)` and likewise for y. -/
theorem fov_collapsed_box_empty (m : FovMap) (p : Point) (radius : Int)
    (hx0 : 0 ≤ p.1) (hxw : p.1 < m.width) (hy0 : 0 ≤ p.2) (hyh : p.2 < m.height)
    (hr : 1 ≤ radius)
    (hcol : min (p.1 + radius) (m.width - 1) - max (p.1 - radius) 0 = 0 ∨
            min (p.2 + radius) (m.height - 1) - max (p.2 - radius) 0 = 0) :
    field_of_view m p radius = .ok [] := by
  have hoob : ¬ (m.is_out_of_bounds p.1 p.2 = true) := by
    simp only [FovMap.is_out_of_bounds, decide_eq_true_eq]
    omega
  simp only [field_of_view]
  rw [if_neg hoob, if_neg (by omega), if_neg (by omega), if_pos hcol]

/-- Witness for C5: a 1x3 map (width 1) with origin (0, 1) and radius 1;
the clipped box has zero width and the result is empty. -/
theorem fov_collapsed_box_empty_witness :
    field_of_view ⟨1, 3, fun _ _ => true⟩ ((0 : Int), (1 : Int)) 1 = .ok [] :=
  fov_collapsed_box_empty ⟨1, 3, fun _ _ => true⟩ (0, 1) 1
    (by norm_num) (by norm_num) (by norm_num) (by norm_num) (by norm_num)
    (Or.inl (by norm_num))

/-- Witness for C6: on a fully transparent 3x3 map with origin (1, 1) and
radius 1 the computed field of view contains (1, 0), which is in bounds. -/
theorem fov_in_bounds_witness :
    0 ≤ (1 : Int) ∧ (1 : Int) < 3 ∧ 0 ≤ (0 : Int) ∧ (0 : Int) < 3 :=
  fov_in_bounds ⟨3, 3, fun _ _ => true⟩ (1, 1) 1
    [(1, 0), (0, 1), (1, 1), (2, 1), (1, 2)]
    (by norm_num) (by norm_num) (by norm_num) (by norm_num) (by norm_num)
    (by rfl) (1, 0) (by decide)


/-! ## `path.rs`: A* over an abstract graph -/

/-- The `Graph` trait (path.rs). Costs and heuristics are Rust `f32`;
they are modelled as exact rationals. `neighboors(a, into)` pushes into a
vector that the engine clears before each call, so it is modelled as a
function returning the pushed list. -/
structure Graph where
  node_count : Nat
  cost_between : Nat → Nat → ℚ
  heuristic : Nat → Nat → ℚ
  neighboors : Nat → List Nat

/-- The `State` pushed on the frontier heap (path.rs). -/
structure AStarState where
  cost : ℚ
  item : Nat
  deriving Repr, DecidableEq

/-- Pop of the `BinaryHeap` frontier with the crate's reversed `Ord`
(a min-heap on `cost`): returns a minimal-cost element and the rest.
The Rust heap breaks cost ties by its internal layout; this model keeps
the earliest minimal element. No claim settled here depends on the tie
order. -/
def popMin : List AStarState → Option (AStarState × List AStarState)
  | [] => none
  | a :: rest =>
    match popMin rest with
    | none => some (a, [])
    | some (b, rest') => if a.cost ≤ b.cost then some (a, rest) else some (b, a :: rest')

/-- One relaxation of `next_index` in the `for &next_index in neighboors`
loop of `astar_path` (path.rs). Rust indexes `came_from`/`costs` with
`next_index` (panicking if it were out of range); the embedding uses
`List.set`, which leaves the vectors unchanged on an out-of-range index. -/
def relaxStep (g : Graph) (to_index current_index : Nat)
    (acc : List AStarState × List (Option Nat) × List (Option ℚ)) (next_index : Nat) :
    List AStarState × List (Option Nat) × List (Option ℚ) :=
  let (frontier, came_from, costs) := acc
  let cost_so_far := ((costs.getD current_index none).getD 0)
  let new_cost := cost_so_far + g.cost_between current_index next_index
  if (costs.getD next_index none).isNone ∨
      (∃ c, costs.getD next_index none = some c ∧ new_cost < c) then
    let priority := new_cost + g.heuristic next_index to_index
    (⟨priority, next_index⟩ :: frontier,
      came_from.set next_index (some current_index),
      costs.set next_index (some new_cost))
  else acc

/-- The `while let Some(State { … }) = frontier.pop()` loop of `astar_path`
(path.rs), with a fuel bound on the number of pops. The Rust loop always
terminates (costs strictly decrease on re-relaxation); on fuel exhaustion
the model returns the bookkeeping accumulated so far, and every theorem
below quantifies over the fuel. Returns `came_from` and `to_cost`. -/
def astarLoop (g : Graph) (to_index : Nat) :
    Nat → List AStarState → List (Option Nat) → List (Option ℚ) →
      List (Option Nat) × ℚ
  | 0, _, came_from, _ => (came_from, 0)
  | fuel + 1, frontier, came_from, costs =>
    match popMin frontier with
    | none => (came_from, 0)
    | some (st, rest) =>
      if st.item = to_index then (came_from, st.cost)
      else
        let acc :=
          (g.neighboors st.item).foldl (relaxStep g to_index st.item)
            (rest, came_from, costs)
        astarLoop g to_index fuel acc.1 acc.2.1 acc.2.2

/-- The `while current != Some(target_index)` loop of `reconstruct_path`
(path.rs), with fuel on the number of chain steps (the Rust loop would
run forever on a cyclic predecessor chain; no reachable chain is cyclic). -/
def reconstructGo (came_from : List (Option Nat)) (target_index : Nat) :
    Option Nat → List Nat → Nat → Option (List Nat)
  | current, path, fuel =>
    if current = some target_index then some ((path ++ [target_index]).reverse)
    else
      match fuel, current with
      | 0, _ => none
      | _ + 1, none => none
      | fuel + 1, some position =>
        match came_from.getD position none with
        | some entry => reconstructGo came_from target_index (some entry)
            (path ++ [position]) fuel
        | none => none

/-- `reconstruct_path` (path.rs). The `cost` argument only sizes the Rust
vector's capacity. -/
def reconstruct_path (from_index to_index : Nat) (came_from : List (Option Nat))
    (cost : ℚ) (fuel : Nat) : Option (List Nat) :=
  let _ := cost
  reconstructGo came_from from_index (some to_index) [] fuel

/-- `astar_path` (path.rs). -/
def astar_path (g : Graph) (from_index to_index : Nat) (fuel : Nat) :
    Except PanicMsg (Option (List Nat)) :=
  if g.node_count ≤ from_index then .error (.indexOut from_index g.node_count)
  else if g.node_count ≤ to_index then .error (.indexOut to_index g.node_count)
  else
    let frontier := [({ cost := 0, item := from_index } : AStarState)]
    let came_from : List (Option Nat) := List.replicate g.node_count none
    let costs := (List.replicate g.node_count (none : Option ℚ)).set from_index (some 0)
    let result := astarLoop g to_index fuel frontier came_from costs
    .ok (reconstruct_path from_index to_index result.1 result.2 fuel)

/-! ## `path.rs`: the four-way grid graph -/

/-- The `PathMap` trait (path.rs). -/
structure PathMap where
  width : Int
  height : Int
  walkable : Int → Int → Bool

/-- `FourWayGridGraph::point_to_index` (path.rs): `(x + y * width) as usize`. -/
def point_to_index (width : Int) (p : Point) : Nat := (p.1 + p.2 * width).toNat

/-- `FourWayGridGraph::index_to_point` (path.rs). -/
def index_to_point (width : Int) (index : Nat) : Point :=
  ((index : Int) % width, (index : Int) / width)

/-- `add_to_neighboors_if_qualified` (path.rs). -/
def addIfQualified (m : PathMap) (p : Point) (into : List Nat) : List Nat :=
  if p.1 < 0 ∨ p.2 < 0 ∨ p.1 ≥ m.width ∨ p.2 ≥ m.height ∨ ¬ m.walkable p.1 p.2 then into
  else into ++ [point_to_index m.width p]

/-- The `Graph` instance of `FourWayGridGraph` (path.rs). The `0.001`
f32 cost nudge is the exact rational `0.001`. -/
def FourWayGridGraph (m : PathMap) : Graph where
  node_count := (m.width * m.height).toNat
  cost_between a b :=
    let basic : ℚ := 1
    let p1 := index_to_point m.width a
    let p2 := index_to_point m.width b
    let nudge : ℚ := if ((p1.1 + p1.2) % 2 = 0 ∧ p2.1 ≠ p1.1) ∨
        ((p1.1 + p1.2) % 2 = 1 ∧ p2.2 ≠ p1.2) then 1 else 0
    basic + 0.001 * nudge
  heuristic a b :=
    let pa := index_to_point m.width a
    let pb := index_to_point m.width b
    (((pa.1 - pb.1).natAbs + (pa.2 - pb.2).natAbs : Nat) : ℚ)
  neighboors a :=
    let p := index_to_point m.width a
    let into := addIfQualified m (p.1, p.2 + 1) []
    let into := addIfQualified m (p.1, p.2 - 1) into
    let into := addIfQualified m (p.1 - 1, p.2) into
    addIfQualified m (p.1 + 1, p.2) into

/-- `astar_path_fourwaygrid` (path.rs). -/
def astar_path_fourwaygrid (m : PathMap) (from_p to_p : Point) (fuel : Nat) :
    Except PanicMsg (Option (List Point)) :=
  if from_p.1 < 0 ∨ from_p.2 < 0 ∨ from_p.1 ≥ m.width ∨ from_p.2 ≥ m.height then
    .error (.pointOut m.width m.height from_p.1 from_p.2)
  else if to_p.1 < 0 ∨ to_p.2 < 0 ∨ to_p.1 ≥ m.width ∨ to_p.2 ≥ m.height then
    .error (.pointOut m.width m.height to_p.1 to_p.2)
  else
    let graph := FourWayGridGraph m
    (astar_path graph (point_to_index m.width from_p) (point_to_index m.width to_p)
        fuel).map
      (fun result => result.map (fun indices => indices.map (index_to_point m.width)))


/-! ## A*: unreachable destinations give `None` -/

/-- Reachability by a sequence of `neighboors` steps; this formalizes
"some sequence of neighbor steps connects `a` to `t`". -/
inductive Reachable (g : Graph) (a : Nat) : Nat → Prop
  | refl : Reachable g a a
  | step {b c : Nat} : Reachable g a b → c ∈ g.neighboors b → Reachable g a c

theorem reachable_in_separator (g : Graph) (S : Nat → Prop) (a : Nat)
    (ha : S a) (hclosed : ∀ b c, S b → c ∈ g.neighboors b → S c) :
    ∀ t, Reachable g a t → S t := by
  intro t h
  induction h with
  | refl => exact ha
  | step hr hmem ih => exact hclosed _ _ ih hmem

/-- A set containing the origin, closed under neighbor steps and missing
`t` witnesses that no neighbor sequence connects the origin to `t`. -/
theorem not_reachable_of_separator (g : Graph) (S : Nat → Prop) (a t : Nat)
    (ha : S a) (hclosed : ∀ b c, S b → c ∈ g.neighboors b → S c) (ht : ¬ S t) :
    ¬ Reachable g a t :=
  fun h => ht (reachable_in_separator g S a ha hclosed t h)

theorem getD_set_opt {α : Type} (l : List (Option α)) (i n : Nat) (v : Option α) :
    (l.set i v).getD n none = if i = n ∧ i < l.length then v else l.getD n none := by
  simp only [List.getD_eq_getElem?_getD, List.getElem?_set]
  by_cases h1 : i = n
  · subst h1
    by_cases h2 : i < l.length
    · simp [h2]
    · have : l[i]? = none := List.getElem?_eq_none (by omega)
      simp [h2, this]
  · simp [h1]

theorem getD_replicate_opt {α : Type} (n i : Nat) :
    ((List.replicate n (none : Option α)).getD i none) = none := by
  simp only [List.getD_eq_getElem?_getD, List.getElem?_replicate]
  split_ifs <;> rfl

theorem popMin_mem : ∀ (l : List AStarState) (st : AStarState) (rest : List AStarState),
    popMin l = some (st, rest) → st ∈ l ∧ ∀ x ∈ rest, x ∈ l := by
  intro l
  induction l with
  | nil => intro st rest h; cases h
  | cons a l ih =>
    intro st rest h
    cases hpm : popMin l with
    | none =>
      simp only [popMin, hpm] at h
      obtain ⟨rfl, rfl⟩ : a = st ∧ ([] : List AStarState) = rest := by
        simpa using h
      exact ⟨List.mem_cons_self a l, by simp⟩
    | some pr =>
      obtain ⟨b, rest'⟩ := pr
      simp only [popMin, hpm] at h
      obtain ⟨hb_mem, hrest'⟩ := ih b rest' hpm
      split_ifs at h with hle
      · obtain ⟨rfl, rfl⟩ : a = st ∧ l = rest := by
          simpa using h
        exact ⟨List.mem_cons_self a l, fun x hx => List.mem_cons_of_mem a hx⟩
      · obtain ⟨rfl, rfl⟩ : b = st ∧ a :: rest' = rest := by
          simpa using h
        refine ⟨List.mem_cons_of_mem a hb_mem, fun x hx => ?_⟩
        rcases List.mem_cons.mp hx with rfl | hx'
        · exact List.mem_cons_self x l
        · exact List.mem_cons_of_mem a (hrest' x hx')

theorem relaxFold_inv (g : Graph) (a to_index cur : Nat) (hcur : Reachable g a cur) :
    ∀ (ns : List Nat) (acc : List AStarState × List (Option Nat) × List (Option ℚ)),
      (∀ b ∈ ns, b ∈ g.neighboors cur) →
      (∀ st ∈ acc.1, Reachable g a st.item) →
      (∀ n j, acc.2.1.getD n none = some j → Reachable g a n) →
      (∀ st ∈ (ns.foldl (relaxStep g to_index cur) acc).1, Reachable g a st.item) ∧
      (∀ n j, (ns.foldl (relaxStep g to_index cur) acc).2.1.getD n none = some j →
        Reachable g a n) := by
  intro ns
  induction ns with
  | nil => intro acc _ h1 h2; exact ⟨h1, h2⟩
  | cons b ns ih =>
    intro acc hns h1 h2
    obtain ⟨fr, cf, costs⟩ := acc
    rw [List.foldl_cons]
    have hb : b ∈ g.neighboors cur := hns b (List.mem_cons_self b ns)
    apply ih
    · intro x hx
      exact hns x (List.mem_cons_of_mem b hx)
    · intro st hst
      simp only [relaxStep] at hst
      split_ifs at hst with hcond
      · rcases List.mem_cons.mp hst with rfl | hst'
        · exact Reachable.step hcur hb
        · exact h1 st hst'
      · exact h1 st hst
    · intro n j hcf
      simp only [relaxStep] at hcf
      split_ifs at hcf with hcond
      · rw [getD_set_opt] at hcf
        split_ifs at hcf with hbn
        · obtain ⟨rfl, -⟩ := hbn
          exact Reachable.step hcur hb
        · exact h2 n j hcf
      · exact h2 n j hcf

theorem astarLoop_came_from (g : Graph) (a to_index : Nat)
    (hto : ¬ Reachable g a to_index) :
    ∀ (fuel : Nat) (frontier : List AStarState) (came_from : List (Option Nat))
      (costs : List (Option ℚ)),
      (∀ st ∈ frontier, Reachable g a st.item) →
      (∀ n j, came_from.getD n none = some j → Reachable g a n) →
      ∀ n j, (astarLoop g to_index fuel frontier came_from costs).1.getD n none = some j →
        Reachable g a n := by
  intro fuel
  induction fuel with
  | zero =>
    intro frontier cf costs h1 h2
    exact h2
  | succ m ih =>
    intro frontier cf costs h1 h2
    cases hpm : popMin frontier with
    | none =>
      simp only [astarLoop, hpm]
      exact h2
    | some pr =>
      obtain ⟨st, rest⟩ := pr
      simp only [astarLoop, hpm]
      obtain ⟨hst_mem, hrest⟩ := popMin_mem frontier st rest hpm
      by_cases hit : st.item = to_index
      · exact absurd (hit ▸ h1 st hst_mem) hto
      · rw [if_neg hit]
        have hfold := relaxFold_inv g a to_index st.item (h1 st hst_mem)
          (g.neighboors st.item) (rest, cf, costs) (fun b hb => hb)
          (fun x hx => h1 x (hrest x hx)) h2
        exact ih _ _ _ hfold.1 hfold.2


theorem reconstructGo_none (cf : List (Option Nat)) (a t : Nat) (fuel : Nat)
    (hne : t ≠ a) (hnone : cf.getD t none = none) :
    reconstructGo cf a (some t) [] fuel = none := by
  cases fuel with
  | zero => simp [reconstructGo, hne]
  | succ m =>
    simp only [reconstructGo, Option.some.injEq, hne, if_false]
    rw [hnone]

/-- If the destination is not reachable, the frontier eventually empties
without ever recording a predecessor for the destination, and
`reconstruct_path` returns `None` — never a partial path. The
well-formedness hypothesis (neighbor ids below `node_count`) restricts to
graphs on which the Rust code does not panic on vector indexing. -/
theorem astar_unreachable_aux (g : Graph) (a t fuel : Nat) (ha : a < g.node_count)
    (ht : t < g.node_count) (hwf : ∀ u v, v ∈ g.neighboors u → v < g.node_count)
    (hreach : ¬ Reachable g a t) :
    astar_path g a t fuel = .ok none := by
  simp only [astar_path]
  rw [if_neg (by omega), if_neg (by omega)]
  have hcf := astarLoop_came_from g a t hreach fuel
    [⟨0, a⟩] (List.replicate g.node_count none)
    ((List.replicate g.node_count (none : Option ℚ)).set a (some 0))
    (by
      intro st hst
      obtain rfl : st = ⟨0, a⟩ := List.mem_singleton.mp hst
      exact Reachable.refl)
    (by
      intro n j h
      rw [getD_replicate_opt] at h
      cases h)
  have hat : (astarLoop g t fuel [⟨0, a⟩] (List.replicate g.node_count none)
      ((List.replicate g.node_count (none : Option ℚ)).set a (some 0))).1.getD t none =
      none := by
    cases hcase : (astarLoop g t fuel [⟨0, a⟩] (List.replicate g.node_count none)
        ((List.replicate g.node_count (none : Option ℚ)).set a (some 0))).1.getD t none with
    | none => rfl
    | some j => exact absurd (hcf t j hcase) hreach
  have hne : t ≠ a := by
    rintro rfl
    exact hreach Reachable.refl
  simp only [reconstruct_path]
  rw [reconstructGo_none _ _ _ _ hne hat]

theorem point_to_index_lt (m : PathMap) (p : Point)
    (h1 : 0 ≤ p.1) (h2 : p.1 < m.width) (h3 : 0 ≤ p.2) (h4 : p.2 < m.height) :
    point_to_index m.width p < (FourWayGridGraph m).node_count := by
  simp only [point_to_index, FourWayGridGraph]
  have hyw : (p.2 + 1) * m.width ≤ m.height * m.width :=
    mul_le_mul_of_nonneg_right (by omega) (by omega)
  have hexp : (p.2 + 1) * m.width = p.2 * m.width + m.width := by ring
  have hnn : 0 ≤ p.2 * m.width := mul_nonneg h3 (by omega)
  have hcomm : m.height * m.width = m.width * m.height := mul_comm _ _
  omega

theorem addIfQualified_mem (m : PathMap) (p : Point) (into : List Nat) (v : Nat)
    (h : v ∈ addIfQualified m p into) :
    v ∈ into ∨ (0 ≤ p.1 ∧ p.1 < m.width ∧ 0 ≤ p.2 ∧ p.2 < m.height ∧
      v = point_to_index m.width p) := by
  unfold addIfQualified at h
  split_ifs at h with hc
  · exact Or.inl h
  · rcases List.mem_append.mp h with h' | h'
    · exact Or.inl h'
    · push_neg at hc
      obtain ⟨hc1, hc2, hc3, hc4, -⟩ := hc
      exact Or.inr ⟨by omega, by omega, by omega, by omega, List.mem_singleton.mp h'⟩

theorem fourway_neighboors_lt (m : PathMap) (u v : Nat)
    (hv : v ∈ (FourWayGridGraph m).neighboors u) :
    v < (FourWayGridGraph m).node_count := by
  have hstep : ∀ (p : Point) (into : List Nat),
      (∀ w ∈ into, w < (FourWayGridGraph m).node_count) →
      ∀ w ∈ addIfQualified m p into, w < (FourWayGridGraph m).node_count := by
    intro p into hinto w hw
    rcases addIfQualified_mem m p into w hw with h | ⟨hb1, hb2, hb3, hb4, rfl⟩
    · exact hinto w h
    · exact point_to_index_lt m p hb1 hb2 hb3 hb4
  have h0 : ∀ w ∈ ([] : List Nat), w < (FourWayGridGraph m).node_count := by simp
  simp only [FourWayGridGraph] at hv
  exact hstep _ _ (hstep _ _ (hstep _ _ (hstep _ _ h0))) v hv

theorem astar_fourwaygrid_unreachable (m : PathMap) (p q : Point) (fuel : Nat)
    (hp1 : 0 ≤ p.1) (hp2 : p.1 < m.width) (hp3 : 0 ≤ p.2) (hp4 : p.2 < m.height)
    (hq1 : 0 ≤ q.1) (hq2 : q.1 < m.width) (hq3 : 0 ≤ q.2) (hq4 : q.2 < m.height)
    (hreach : ¬ Reachable (FourWayGridGraph m) (point_to_index m.width p)
      (point_to_index m.width q)) :
    astar_path_fourwaygrid m p q fuel = .ok none := by
  simp only [astar_path_fourwaygrid]
  rw [if_neg (by omega), if_neg (by omega)]
  rw [astar_unreachable_aux (FourWayGridGraph m) _ _ fuel
    (point_to_index_lt m p hp1 hp2 hp3 hp4) (point_to_index_lt m q hq1 hq2 hq3 hq4)
    (fourway_neighboors_lt m) hreach]
  rfl

/-- C8: if no sequence of neighbor steps connects `from_index` to
`to_index`, then `astar_path` returns `None` (the frontier empties) and
never a partial path; in particular, `astar_path_fourwaygrid` returns
`None` when origin and destination are separated by a complete wall. The
`hwf` hypothesis in the first part restricts to graphs whose neighbor ids
stay below `node_count` (otherwise the Rust vector indexing would panic);
the grid graph satisfies it by construction. -/
theorem astar_no_path_when_unreachable :
    (∀ (g : Graph) (a t fuel : Nat), a < g.node_count → t < g.node_count →
      (∀ u v, v ∈ g.neighboors u → v < g.node_count) →
      ¬ Reachable g a t → astar_path g a t fuel = .ok none) ∧
    (∀ (m : PathMap) (p q : Point) (fuel : Nat),
      0 ≤ p.1 → p.1 < m.width → 0 ≤ p.2 → p.2 < m.height →
      0 ≤ q.1 → q.1 < m.width → 0 ≤ q.2 → q.2 < m.height →
      ¬ Reachable (FourWayGridGraph m) (point_to_index m.width p)
        (point_to_index m.width q) →
      astar_path_fourwaygrid m p q fuel = .ok none) :=
  ⟨astar_unreachable_aux, astar_fourwaygrid_unreachable⟩

/-- Witness for C8: a 3x1 grid whose middle cell is a wall; `(0,0)` and
`(2,0)` are separated, and the search returns `None`. -/
theorem astar_no_path_witness :
    astar_path_fourwaygrid ⟨3, 1, fun x _ => x != 1⟩ ((0 : Int), (0 : Int)) (2, 0) 20 =
      .ok none :=
  astar_no_path_when_unreachable.2 ⟨3, 1, fun x _ => x != 1⟩ (0, 0) (2, 0) 20
    (by norm_num) (by norm_num) (by norm_num) (by norm_num)
    (by norm_num) (by norm_num) (by norm_num) (by norm_num)
    (not_reachable_of_separator _ (fun n => n = 0) _ _ rfl
      (by
        intro b c hb hc
        subst hb
        have hnil : (FourWayGridGraph ⟨3, 1, fun x _ => x != 1⟩).neighboors 0 = [] := by
          decide
        rw [hnil] at hc
        exact absurd hc (List.not_mem_nil c))
      (by decide))

/-- C9: `astar_path` panics whenever `from_index` or `to_index` is at or
above `node_count`, and `astar_path_fourwaygrid` panics whenever `from` or
`to` lies outside the map dimensions; the call aborts immediately with the
expected-vs-actual bounds data of the Rust panic messages. -/
theorem astar_out_of_bounds_panics :
    (∀ (g : Graph) (f t fuel : Nat), g.node_count ≤ f →
      astar_path g f t fuel = .error (.indexOut f g.node_count)) ∧
    (∀ (g : Graph) (f t fuel : Nat), f < g.node_count → g.node_count ≤ t →
      astar_path g f t fuel = .error (.indexOut t g.node_count)) ∧
    (∀ (m : PathMap) (p q : Point) (fuel : Nat),
      (p.1 < 0 ∨ p.2 < 0 ∨ p.1 ≥ m.width ∨ p.2 ≥ m.height) →
      astar_path_fourwaygrid m p q fuel = .error (.pointOut m.width m.height p.1 p.2)) ∧
    (∀ (m : PathMap) (p q : Point) (fuel : Nat),
      ¬ (p.1 < 0 ∨ p.2 < 0 ∨ p.1 ≥ m.width ∨ p.2 ≥ m.height) →
      (q.1 < 0 ∨ q.2 < 0 ∨ q.1 ≥ m.width ∨ q.2 ≥ m.height) →
      astar_path_fourwaygrid m p q fuel = .error (.pointOut m.width m.height q.1 q.2)) := by
  refine ⟨?_, ?_, ?_, ?_⟩
  · intro g f t fuel hf
    simp only [astar_path]
    rw [if_pos hf]
  · intro g f t fuel hf ht
    simp only [astar_path]
    rw [if_neg (by omega), if_pos ht]
  · intro m p q fuel hp
    simp only [astar_path_fourwaygrid]
    rw [if_pos hp]
  · intro m p q fuel hp hq
    simp only [astar_path_fourwaygrid]
    rw [if_neg hp, if_pos hq]

/-- Witness for C9: index 5 on a 3-node graph, and the out-of-bounds point
`(0, 12)` on a 10x10 grid (the inputs of the crate's two `should_panic`
tests, with 120 scaled to 5). -/
theorem astar_out_of_bounds_witness :
    astar_path ⟨3, fun _ _ => 1, fun _ _ => 0, fun _ => []⟩ 5 0 10 =
      .error (.indexOut 5 3) ∧
    astar_path_fourwaygrid ⟨10, 10, fun _ _ => true⟩ ((0 : Int), (0 : Int)) (0, 12) 10 =
      .error (.pointOut 10 10 0 12) :=
  ⟨astar_out_of_bounds_panics.1 ⟨3, fun _ _ => 1, fun _ _ => 0, fun _ => []⟩ 5 0 10
      (by norm_num),
    astar_out_of_bounds_panics.2.2.2 ⟨10, 10, fun _ _ => true⟩ (0, 0) (0, 12) 10
      (by norm_num) (by norm_num)⟩

/-- C10: for every graph and valid node id `i`, `astar_path(graph, i, i)`
returns `Some([i])`: the origin is popped first, equals the destination,
and `reconstruct_path` terminates immediately — regardless of neighbors or
walkability. -/
theorem astar_self_path (g : Graph) (i fuel : Nat) (hi : i < g.node_count) :
    astar_path g i i fuel = .ok (some [i]) := by
  simp only [astar_path]
  rw [if_neg (by omega), if_neg (by omega)]
  cases fuel with
  | zero => simp [astarLoop, reconstruct_path, reconstructGo]
  | succ n => simp [astarLoop, popMin, reconstruct_path, reconstructGo]

/-- Witness for C10: the single-node graph with no edges. -/
theorem astar_self_path_witness :
    (0 : Nat) < (⟨1, fun _ _ => 1, fun _ _ => 0, fun _ => []⟩ : Graph).node_count ∧
    astar_path ⟨1, fun _ _ => 1, fun _ _ => 0, fun _ => []⟩ 0 0 5 = .ok (some [0]) :=
  ⟨by norm_num, astar_self_path ⟨1, fun _ _ => 1, fun _ _ => 0, fun _ => []⟩ 0 5
    (by norm_num)⟩

end Torchbearer
